import Mathlib

/-!
Verification development for the playlist assembly and duration-fitting
engine of the `yt-agent-assistant` repository
(`src/yt_agent_assistant/services/audio.py`, with helpers from
`src/yt_agent_assistant/utils.py` and `src/yt_agent_assistant/config.py`).

The Python code is shallowly embedded:

* clip records (`TrackItem` dicts) become a Lean structure with the same
  fields; float durations are modelled by rationals;
* `random.Random(seed)` (a Mersenne-Twister generator seeded either with
  the given integer or, when `seed is None`, with operating-system
  entropy) is modelled by a deterministic linear congruential generator
  threaded explicitly through the computation; the ambient entropy used
  for `seed = None` is made an explicit extra parameter;
* the potentially non-terminating exhaustion-cycle `while` loop of
  `build_selection` is given an explicit fuel parameter, with `none`
  returned when the fuel runs out;
* Python string/number helpers (`str.strip`, `str.lower`, `int(...)`,
  `str(timedelta(...))`) are modelled by Lean functions over the
  character list of the string.

Rational arithmetic is performed through the kernel-reducible wrappers
`qAdd`/`qSub` (proved equal to `+`/`-` below) so that every definition
can be evaluated on concrete inputs by `decide`.
-/

/-! ## Kernel-reducible rational arithmetic -/

/-- Addition on `ℚ` through `mkRat`, definitionally transparent
(unlike `Rat.add`, which is `@[irreducible]`). -/
def qAdd (a b : ℚ) : ℚ :=
  mkRat (a.num * b.den + b.num * a.den) (a.den * b.den)

/-- Subtraction on `ℚ` through `mkRat`, definitionally transparent. -/
def qSub (a b : ℚ) : ℚ :=
  mkRat (a.num * b.den - b.num * a.den) (a.den * b.den)

theorem qAdd_eq (a b : ℚ) : qAdd a b = a + b :=
  (Rat.add_def' a b).symm

theorem qSub_eq (a b : ℚ) : qSub a b = a - b :=
  (Rat.sub_def' a b).symm

/-- Model of Python `max(0.0, x)`. -/
def pyMax0 (q : ℚ) : ℚ :=
  if q ≤ 0 then 0 else q

theorem pyMax0_eq (q : ℚ) : pyMax0 q = max 0 q := by
  unfold pyMax0
  rcases le_or_lt q 0 with h | h
  · simp [h, max_eq_left h]
  · simp [not_le.mpr h, max_eq_right h.le]

/-! ## Data model: clip records and preference tokens -/

/-- Embedding of the `TrackItem` dict built by the collectors in
`audio.py`: keys `path`, `type`, `psalm_num`, `gospel_name`,
`gospel_chapter`, `has_num`, `label`, `dur`.  Durations (Python floats)
are modelled as rationals. -/
structure TrackItem where
  path : String
  type : String
  psalm_num : Option Int
  gospel_name : Option String
  gospel_chapter : Option Int
  has_num : Bool
  label : String
  dur : ℚ
deriving DecidableEq

/-- A preference token handed to `build_selection` (`Union[str, int]` in
the Python signature). -/
inductive Pref where
  | int (n : Int) : Pref
  | str (s : String) : Pref
deriving DecidableEq

/-- Total duration of a list of clip records (sum of the `dur` fields,
via the transparent adder). -/
def durSum : List TrackItem → ℚ
  | [] => 0
  | it :: rest => qAdd it.dur (durSum rest)

theorem durSum_eq_sum (l : List TrackItem) : durSum l = (l.map TrackItem.dur).sum := by
  induction l with
  | nil => rfl
  | cons it rest ih => simp [durSum, qAdd_eq, ih]

theorem durSum_append (a b : List TrackItem) : durSum (a ++ b) = durSum a + durSum b := by
  rw [durSum_eq_sum, durSum_eq_sum, durSum_eq_sum, List.map_append, List.sum_append]

/-! ## Python string helpers (`utils.py` and stdlib semantics) -/

/-- Model of Python `str.strip()`: remove leading and trailing
whitespace, operating on the character list. -/
def pyStrip (s : String) : String :=
  String.mk (((s.data.dropWhile Char.isWhitespace).reverse.dropWhile Char.isWhitespace).reverse)

/-- Model of Python `str.lower()` (ASCII case folding suffices for the
book names this code handles). -/
def pyLower (s : String) : String :=
  String.mk (s.data.map Char.toLower)

/-- Numeric value of a list of decimal digit characters. -/
def digitsVal (cs : List Char) : Nat :=
  cs.foldl (fun acc c => acc * 10 + (c.toNat - 48)) 0

/-- Helper for `pyIntOfStr`: checks that a character list is a valid
Python integer literal body (nonempty digits, with single underscores
allowed between digits, as in PEP 515). The first argument records
whether the previous character was a digit. -/
def pyDigitsOk : Bool → List Char → Bool
  | prevDigit, [] => prevDigit
  | _, c :: rest =>
      if c.isDigit then pyDigitsOk true rest
      else if c == '_' then
        (match rest with
          | [] => false
          | d :: _ => d.isDigit) && pyDigitsOk false rest
      else false

/-- The optional sign at the front of a Python integer literal. -/
def pySign : List Char → Int × List Char
  | '+' :: t => (1, t)
  | '-' :: t => (-1, t)
  | cs => (1, cs)

/-- Model of Python `int(s)` on an already-stripped string: optional
sign followed by digits (underscores allowed between digits); returns
`none` when Python would raise `ValueError`. -/
def pyIntOfStr (s : String) : Option Int :=
  if pyDigitsOk false (pySign s.data).2 then
    some ((pySign s.data).1 * Int.ofNat (digitsVal ((pySign s.data).2.filter Char.isDigit)))
  else
    none

/-- Embedding of `coerce_iterable_str` from `utils.py`: ints pass
through; strings are stripped, dropped when empty, converted with
`int(...)` when possible, and otherwise kept as the stripped string. -/
def coerce_iterable_str : List Pref → List Pref
  | [] => []
  | Pref.int n :: rest => Pref.int n :: coerce_iterable_str rest
  | Pref.str s :: rest =>
      let val := pyStrip s
      if val.data.isEmpty then coerce_iterable_str rest
      else
        match pyIntOfStr val with
        | some n => Pref.int n :: coerce_iterable_str rest
        | none => Pref.str val :: coerce_iterable_str rest

/-! ## Timestamp formatting (`format_ts` in `utils.py`) -/

/-- Zero-pad a natural number to two digits (Python `%02d` for the
minute and second fields of `timedelta`). -/
def pad2 (k : Nat) : String :=
  if k < 10 then "0" ++ Nat.repr k else Nat.repr k

/-- Model of Python `str(datetime.timedelta(seconds = n))` for a
natural number of seconds: `H:MM:SS`, prefixed with `D day(s), ` when
the value reaches one day. -/
def timedeltaRepr (n : Nat) : String :=
  let days := n / 86400
  let rem := n % 86400
  let core := Nat.repr (rem / 3600) ++ ":" ++ pad2 (rem % 3600 / 60) ++ ":" ++ pad2 (rem % 60)
  if days = 0 then core
  else Nat.repr days ++ (if days = 1 then " day, " else " days, ") ++ core

/-- The integer-second value used by `format_ts`:
`int(max(0, seconds_float))` (clamp below by zero, truncate the
fraction). -/
def secOfQ (q : ℚ) : Nat :=
  (Rat.floor (pyMax0 q)).toNat

/-- Embedding of `format_ts` from `utils.py`:
`str(timedelta(seconds=int(max(0, seconds_float))))`. -/
def format_ts (q : ℚ) : String :=
  timedeltaRepr (secOfQ q)

/-- Plain `H:MM:SS` rendering of a number of seconds with total
(unpadded) hours — the format the specification asserts for every
chapter line. -/
def hmsRepr (n : Nat) : String :=
  Nat.repr (n / 3600) ++ ":" ++ pad2 (n % 3600 / 60) ++ ":" ++ pad2 (n % 60)

/-! ## Chapter file generation (`AudioEngine.write_chapters`) -/

/-- Effective duration a track contributes to the running clock in
`write_chapters`: the (already clamped) first-track offset is
subtracted from track 1 only, clamping at zero. -/
def effectiveDur (off : ℚ) (idx : Nat) (dur : ℚ) : ℚ :=
  if idx = 1 ∧ 0 < off then pyMax0 (qSub dur off) else dur

/-- The `(timestamp, label)` pairs accumulated by the loop of
`write_chapters` (1-based `idx`, running clock `t`). -/
def chapterEntries (off : ℚ) : Nat → ℚ → List (ℚ × String) → List (ℚ × String)
  | _, _, [] => []
  | idx, t, (dur, label) :: rest =>
      (t, label) :: chapterEntries off (idx + 1) (qAdd t (effectiveDur off idx dur)) rest

/-- Embedding of `AudioEngine.write_chapters`: the list of lines
written to the chapter file.  Each track is a `(duration, label)` pair;
`offsetFirst` models the `offset_first` argument after the
`max(0.0, offset_first or 0.0)` clamp at the top of the function. -/
def write_chapters (tracks : List (ℚ × String)) (offsetFirst : ℚ) : List String :=
  (chapterEntries (pyMax0 offsetFirst) 1 0 tracks).map (fun e => format_ts e.1 ++ " - " ++ e.2)

/-- The list of per-track effective durations computed by
`write_chapters` (1-based enumeration, offset applied to track 1
only). -/
def effectiveDursAux (off : ℚ) (idx : Nat) : List ℚ → List ℚ
  | [] => []
  | d :: rest => effectiveDur off idx d :: effectiveDursAux off (idx + 1) rest

/-- Effective durations of a track list under a raw (unclamped)
first-track offset, exactly as `write_chapters` computes them. -/
def effectiveDurs (offsetFirst : ℚ) (durs : List ℚ) : List ℚ :=
  effectiveDursAux (pyMax0 offsetFirst) 1 durs

example : format_ts 0 = "0:00:00" := by decide
example : format_ts 7 = "0:00:07" := by decide
example : format_ts (mkRat 36729 10) = "1:01:12" := by decide
example : write_chapters [(10, "A"), (5, "B")] 3 = ["0:00:00 - A", "0:00:07 - B"] := by decide

/-! ## Gospel book-name normalization (`_norm_gospel_name`, `_display_gospel_name`) -/

/-- Model of Python `str.title()` (used by `_display_gospel_name` for
unrecognized names): uppercase a letter that follows a non-letter,
lowercase the other letters. -/
def pyTitleGo : Bool → List Char → List Char
  | _, [] => []
  | prevCased, c :: rest =>
      if c.isAlpha then (if prevCased then c.toLower else c.toUpper) :: pyTitleGo true rest
      else c :: pyTitleGo false rest

/-- Model of Python `str.title()`. -/
def pyTitle (s : String) : String :=
  String.mk (pyTitleGo false s.data)

/-- Embedding of `AudioEngine._norm_gospel_name`: strip, lowercase,
then collapse the recognized spellings to the internal canonical
token; anything unrecognized passes through. -/
def norm_gospel_name (name : String) : String :=
  let normalized := pyLower (pyStrip name)
  if normalized = "marc" ∨ normalized = "mark" then "marc"
  else if normalized = "luke" ∨ normalized = "luc" then "luke"
  else if normalized = "matt" ∨ normalized = "matthew" ∨ normalized = "matthieu" then "matthew"
  else if normalized = "john" ∨ normalized = "jean" then "john"
  else normalized

/-- Embedding of `AudioEngine._display_gospel_name`: the display
mapping `{"marc": "Marc", "luke": "Luke", "matthew": "Matthew",
"john": "John"}` with `name.title()` as the fallback. -/
def display_gospel_name (name : String) : String :=
  ((([("marc", "Marc"), ("luke", "Luke"), ("matthew", "Matthew"), ("john", "John")] :
      List (String × String)).lookup name).getD (pyTitle name))

/-! ## The gospel-reference regular expression (`_GOSPEL_RE` and `_parse_gospel_ref`)

The Python code matches
`(?i)\b(luke|luc|matt(?:hew|hieu)?|john|jean|marc|mark)\b[\s_\-]*0*([0-9]+)`
with `re.search` (leftmost match, alternatives in order, greedy
optional suffix).  The embedding scans the character list following
exactly that backtracking discipline. -/

/-- A regex word character (`\w`): letter, digit or underscore. -/
def isWordChar (c : Char) : Bool :=
  c.isAlphanum || c == '_'

/-- The alternatives of the name group in the order the regex engine
tries them (`matt(?:hew|hieu)?` expands greedily to
`matthew`, `matthieu`, `matt`). -/
def gospelAltNames : List String :=
  ["luke", "luc", "matthew", "matthieu", "matt", "john", "jean", "marc", "mark"]

/-- Case-insensitive prefix match of a lowercase pattern against the
input; returns the rest of the input on success. -/
def lowerMatch : List Char → List Char → Option (List Char)
  | [], rest => some rest
  | _ :: _, [] => none
  | p :: ps, c :: cs => if c.toLower == p then lowerMatch ps cs else none

/-- After the book name: require a word boundary, skip `[\s_\-]*`,
then `0*` followed by `[0-9]+` (with the regex backtracking that lets
a final zero satisfy the digit group). -/
def matchChapterAfter (rest : List Char) : Option Int :=
  match rest with
  | [] => none
  | c :: _ =>
      if isWordChar c then none
      else
        let r1 := rest.dropWhile (fun d => d.isWhitespace || d == '_' || d == '-')
        let zeros := r1.takeWhile (fun d => d == '0')
        let r2 := r1.drop zeros.length
        let digits := r2.takeWhile Char.isDigit
        if digits.isEmpty then
          if zeros.isEmpty then none else some 0
        else some (Int.ofNat (digitsVal digits))

/-- Try each name alternative at the current position, with its full
continuation (boundary, separators, digits). -/
def tryGospelAlts (s : List Char) : List String → Option (String × Int)
  | [] => none
  | name :: others =>
      match lowerMatch name.data s with
      | some remaining =>
          match matchChapterAfter remaining with
          | some ch => some (name, ch)
          | none => tryGospelAlts s others
      | none => tryGospelAlts s others

/-- Leftmost search: advance one character at a time, trying the
alternatives wherever a word boundary precedes the position. -/
def gospelSearch : Option Char → List Char → Option (String × Int)
  | _, [] => none
  | prev, c :: rest =>
      let boundaryOk :=
        match prev with
        | none => true
        | some p => !isWordChar p
      match (if boundaryOk then tryGospelAlts (c :: rest) gospelAltNames else none) with
      | some r => some r
      | none => gospelSearch (some c) rest

/-- Embedding of `AudioEngine._parse_gospel_ref`: search the text with
`_GOSPEL_RE`, normalize the matched name, parse the chapter. -/
def parse_gospel_ref (text : String) : Option (String × Int) :=
  (gospelSearch none text.data).map (fun r => (norm_gospel_name r.1, r.2))

/-! ## Preference indices (`by_psalm`, `by_gospel`)

The Python builds two `setdefault` dicts over `preferred_candidates`
(first record wins per key) and then looks keys up; looking the key up
directly with `find?` under the same guard has identical semantics. -/

/-- First candidate whose `type` is `"psalm"` and whose `psalm_num`
equals the token (the `by_psalm` index of `build_selection`). -/
def byPsalm (cands : List TrackItem) (n : Int) : Option TrackItem :=
  cands.find? (fun it => it.type == "psalm" && it.psalm_num == some n)

/-- First candidate whose `type` is `"gospel"`, whose `gospel_name` is
truthy and equals the token's book, and whose `gospel_chapter` equals
the token's chapter (the `by_gospel` index of `build_selection`). -/
def byGospel (cands : List TrackItem) (g : String) (ch : Int) : Option TrackItem :=
  cands.find? (fun it =>
    it.type == "gospel" &&
    (match it.gospel_name with
     | some gn => !gn.isEmpty && gn == g
     | none => false) &&
    it.gospel_chapter == some ch)

/-! ## The seeded random generator (`random.Random(seed)`)

Modelled: CPython's Mersenne Twister is replaced by a 64-bit linear
congruential generator.  `random.Random(None)` seeds from operating
system entropy; that entropy is an explicit extra parameter here.  The
selection algorithm relies only on `shuffle` producing a permutation
of its input, which `shuffleGo_perm` establishes below. -/

/-- One step of the modelled generator (Knuth's 64-bit MMIX constants,
reduced mod `2 ^ 64`). -/
def lcgNext (s : Nat) : Nat :=
  (6364136223846793005 * s + 1442695040888963407) % (2 ^ 64)

/-- Seed initialisation: an integer seed is used as given;
`seed = None` draws operating-system entropy (the explicit `entropy`
argument). -/
def initRng : Option Nat → Nat → Nat
  | some s, _ => s
  | none, entropy => entropy

/-- Fuel-indexed Fisher–Yates-style shuffle: repeatedly pick the
element indexed by the generator state and recurse on the rest. -/
def shuffleGo {α : Type} [DecidableEq α] : Nat → Nat → List α → List α × Nat
  | 0, s, l => (l, s)
  | _ + 1, s, [] => ([], s)
  | n + 1, s, a :: rest =>
      let l := a :: rest
      let j := s % l.length
      let x := match l.get? j with | some y => y | none => a
      let res := shuffleGo n (lcgNext s) (l.erase x)
      (x :: res.1, res.2)

/-- Model of `rng.shuffle(l)`: a permutation of `l` determined by the
generator state, plus the advanced state. -/
def pyShuffle {α : Type} [DecidableEq α] (s : Nat) (l : List α) : List α × Nat :=
  shuffleGo l.length s l

/-! ## `AudioEngine.build_selection` -/

/-- The mutable state of `build_selection`: the growing `selection`
list, the running `total`, and the `used_paths` set (modelled as a
list queried by membership). -/
structure SelSt where
  sel : List TrackItem
  total : ℚ
  used : List String
deriving DecidableEq

/-- The accumulation walk shared by the first pass and by
`cycle_once`: append each item, mark its path used, add its duration,
and stop (hit = `true`) as soon as the running total reaches the
target. -/
def walk (target : ℚ) : List TrackItem → SelSt → SelSt × Bool
  | [], st => (st, false)
  | it :: rest, st =>
      let st2 : SelSt := ⟨st.sel ++ [it], qAdd st.total it.dur, it.path :: st.used⟩
      if target ≤ st2.total then (st2, true) else walk target rest st2

/-- Sequential resolution of the (already shuffled and truncated)
preference tokens against the indices: ints through `byPsalm`, strings
through `parse_gospel_ref` and `byGospel`; a resolved clip whose path
is already used is dropped. Returns the head list and the used-path
set. -/
def resolveTokens (cands : List TrackItem) : List Pref → List TrackItem → List String → List TrackItem × List String
  | [], head, used => (head, used)
  | Pref.int n :: rest, head, used =>
      match byPsalm cands n with
      | some c =>
          if c.path ∈ used then resolveTokens cands rest head used
          else resolveTokens cands rest (head ++ [c]) (c.path :: used)
      | none => resolveTokens cands rest head used
  | Pref.str s :: rest, head, used =>
      match parse_gospel_ref s with
      | some g =>
          if g.1 ≠ "" ∧ g.2 ≠ 0 then
            match byGospel cands g.1 g.2 with
            | some c =>
                if c.path ∈ used then resolveTokens cands rest head used
                else resolveTokens cands rest (head ++ [c]) (c.path :: used)
            | none => resolveTokens cands rest head used
          else resolveTokens cands rest head used
      | none => resolveTokens cands rest head used

/-- Truncation of the shuffled token list: applied only when
`max_head_items` is a positive int (`isinstance(max_head, int) and
max_head > 0`). -/
def truncHead (maxHead : Option Int) (toks : List Pref) : List Pref :=
  match maxHead with
  | some m => if 0 < m then toks.take m.toNat else toks
  | none => toks

/-- The head phase of `build_selection`: when `preferred_head` is
truthy, shuffle the tokens, truncate to `max_head_items` when that is
a positive int, and resolve them.  Returns `(head, used_paths)` and
the advanced generator state. -/
def headPhase (cands : List TrackItem) (preferredHead : List Pref) (maxHead : Option Int) (rng : Nat) :
    (List TrackItem × List String) × Nat :=
  if preferredHead.isEmpty then (([], []), rng)
  else
    (resolveTokens cands (truncHead maxHead (pyShuffle rng preferredHead).1) [] [],
      (pyShuffle rng preferredHead).2)

/-- One exhaustion cycle (`cycle_once` in the Python): collect the
pool items not yet used, resetting the used set to empty when none
remain, shuffle them, and run the accumulation walk. -/
def cycle_once (pool : List TrackItem) (target : ℚ) (st : SelSt) (rng : Nat) : SelSt × Nat × Bool :=
  let remaining := pool.filter (fun it => decide (it.path ∉ st.used))
  let stRem : SelSt × List TrackItem :=
    if remaining.isEmpty then (⟨st.sel, st.total, []⟩, pool) else (st, remaining)
  let sh := pyShuffle rng stRem.2
  let w := walk target sh.1 stRem.1
  (w.1, sh.2, w.2)

/-- The `while total < target` loop of `build_selection`, with fuel;
`none` models non-termination (fuel exhausted). -/
def selLoop (pool : List TrackItem) (target : ℚ) : Nat → SelSt → Nat → Option (List TrackItem × ℚ)
  | 0, _, _ => none
  | fuel + 1, st, rng =>
      if st.total < target then
        if (cycle_once pool target st rng).2.2 then
          some ((cycle_once pool target st rng).1.sel, (cycle_once pool target st rng).1.total)
        else
          selLoop pool target fuel (cycle_once pool target st rng).1 (cycle_once pool target st rng).2.1
      else some (st.sel, st.total)

/-- Everything `build_selection` does before entering the `while`
loop: seed the generator, build the indices and the head, shuffle the
tail, and run the first accumulation walk over `head + tail`.  Returns
the walk result (state and hit flag) and the generator state. -/
def preLoop (pool_items : List TrackItem) (target_seconds : ℚ)
    (preferred_head : List Pref) (preferred_candidates : Option (List TrackItem))
    (seed : Option Nat) (entropy : Nat) (max_head_items : Option Int) :
    (SelSt × Bool) × Nat :=
  let rng0 := initRng seed entropy
  let cands := preferred_candidates.getD pool_items
  let hp := headPhase cands preferred_head max_head_items rng0
  let tail := pool_items.filter (fun it => decide (it.path ∉ hp.1.2))
  let tsh := pyShuffle hp.2 tail
  let w := walk target_seconds (hp.1.1 ++ tsh.1) ⟨[], 0, hp.1.2⟩
  (w, tsh.2)

/-- Embedding of `AudioEngine.build_selection`.  Beyond the Python
parameters: `fuel` bounds the number of exhaustion cycles (`none` is
returned when it runs out, modelling non-termination), `entropy` is
the operating-system entropy consumed when `seed` is `None`, and
`max_head_items` stands for `self.settings.audio.max_head_items`.
When the first pass reaches the target the function returns
immediately; otherwise it enters the exhaustion-cycle loop. -/
def build_selection (fuel : Nat) (pool_items : List TrackItem) (target_seconds : ℚ)
    (preferred_head : List Pref) (preferred_candidates : Option (List TrackItem))
    (seed : Option Nat) (entropy : Nat) (max_head_items : Option Int) :
    Option (List TrackItem × ℚ) :=
  if (preLoop pool_items target_seconds preferred_head preferred_candidates seed entropy max_head_items).1.2 then
    some ((preLoop pool_items target_seconds preferred_head preferred_candidates seed entropy max_head_items).1.1.sel,
      (preLoop pool_items target_seconds preferred_head preferred_candidates seed entropy max_head_items).1.1.total)
  else
    selLoop pool_items target_seconds fuel
      (preLoop pool_items target_seconds preferred_head preferred_candidates seed entropy max_head_items).1.1
      (preLoop pool_items target_seconds preferred_head preferred_candidates seed entropy max_head_items).2

example : parse_gospel_ref "Mark 4" = some ("marc", 4) := by decide
example : parse_gospel_ref "matthew5" = none := by decide
example : parse_gospel_ref "intro_Luc-007_take2" = none := by decide
example : parse_gospel_ref "intro Luc-007_take2" = some ("luke", 7) := by decide
example : parse_gospel_ref "luke_3" = none := by decide
example : norm_gospel_name " MATT " = "matthew" := by decide

/-! ## Basic facts about the shuffle model -/

theorem shuffleGo_perm {α : Type} [DecidableEq α] :
    ∀ (fuel s : Nat) (l : List α), (shuffleGo fuel s l).1.Perm l := by
  intro fuel
  induction fuel with
  | zero => intro s l; simp [shuffleGo]
  | succ n ih =>
      intro s l
      match l with
      | [] => simp [shuffleGo]
      | a :: rest =>
          simp only [shuffleGo]
          set l := a :: rest with hl
          have hx : (match l.get? (s % l.length) with | some y => y | none => a) ∈ l := by
            cases hg : l.get? (s % l.length) with
            | none => rw [hl]; exact List.mem_cons_self a rest
            | some y => exact List.get?_mem hg
          exact ((ih (lcgNext s) (l.erase _)).cons _).trans (List.perm_cons_erase hx).symm

theorem pyShuffle_perm {α : Type} [DecidableEq α] (s : Nat) (l : List α) :
    (pyShuffle s l).1.Perm l :=
  shuffleGo_perm l.length s l

theorem durSum_perm {l₁ l₂ : List TrackItem} (h : l₁.Perm l₂) : durSum l₁ = durSum l₂ := by
  rw [durSum_eq_sum, durSum_eq_sum]
  exact (h.map TrackItem.dur).sum_eq

/-- All pool paths are in the used set. -/
def coversPool (pool : List TrackItem) (used : List String) : Prop :=
  ∀ it ∈ pool, it.path ∈ used

theorem filter_unused_eq_nil {pool : List TrackItem} {used : List String}
    (h : coversPool pool used) :
    pool.filter (fun it => decide (it.path ∉ used)) = [] := by
  rw [List.filter_eq_nil_iff]
  intro it hit
  simpa using h it hit

theorem mem_filter_unused {pool : List TrackItem} {used : List String} {it : TrackItem} :
    it ∈ pool.filter (fun x => decide (x.path ∉ used)) ↔ it ∈ pool ∧ it.path ∉ used := by
  simp [List.mem_filter]

/-! ## The accumulation walk -/

theorem walk_spec (target : ℚ) :
    ∀ (l : List TrackItem) (st : SelSt),
      ∃ k, k ≤ l.length ∧
        (walk target l st).1.sel = st.sel ++ l.take k ∧
        (walk target l st).1.total = st.total + durSum (l.take k) ∧
        (walk target l st).1.used = ((l.take k).map TrackItem.path).reverse ++ st.used ∧
        ((walk target l st).2 = true → target ≤ (walk target l st).1.total) ∧
        ((walk target l st).2 = false → k = l.length) := by
  intro l
  induction l with
  | nil =>
      intro st
      exact ⟨0, by simp [walk, durSum]⟩
  | cons it rest ih =>
      intro st
      by_cases h : target ≤ qAdd st.total it.dur
      · have h2 : target ≤ st.total + it.dur := by rwa [qAdd_eq] at h
        refine ⟨1, by simp, ?_, ?_, ?_, ?_, ?_⟩ <;>
          simp [walk, durSum, qAdd_eq, h2]
      · obtain ⟨k, hk, hsel, htot, hused, hhit, hmiss⟩ :=
          ih ⟨st.sel ++ [it], qAdd st.total it.dur, it.path :: st.used⟩
        have hw : walk target (it :: rest) st =
            walk target rest ⟨st.sel ++ [it], qAdd st.total it.dur, it.path :: st.used⟩ := by
          simp [walk, h]
        refine ⟨k + 1, by simpa using Nat.succ_le_succ hk, ?_, ?_, ?_, ?_, ?_⟩
        · rw [hw, hsel]; simp
        · rw [hw, htot]; simp [durSum, qAdd_eq]; ring
        · rw [hw, hused]; simp
        · rw [hw]; exact hhit
        · rw [hw]; intro hf; simpa using congrArg Nat.succ (hmiss hf)

theorem walk_hit_target {target : ℚ} {l : List TrackItem} {st : SelSt}
    (h : (walk target l st).2 = true) : target ≤ (walk target l st).1.total := by
  obtain ⟨k, _, _, _, _, hhit, _⟩ := walk_spec target l st
  exact hhit h

theorem walk_false_spec {target : ℚ} {l : List TrackItem} {st : SelSt}
    (h : (walk target l st).2 = false) :
    (walk target l st).1.sel = st.sel ++ l ∧
    (walk target l st).1.total = st.total + durSum l ∧
    (walk target l st).1.used = (l.map TrackItem.path).reverse ++ st.used := by
  obtain ⟨k, hk, hsel, htot, hused, _, hmiss⟩ := walk_spec target l st
  have hkl : k = l.length := hmiss h
  subst hkl
  rw [List.take_length] at hsel htot hused
  exact ⟨hsel, htot, hused⟩

theorem walk_sel_take {target : ℚ} {l : List TrackItem} {st : SelSt} :
    ∃ k, (walk target l st).1.sel = st.sel ++ l.take k := by
  obtain ⟨k, _, hsel, _⟩ := walk_spec target l st
  exact ⟨k, hsel⟩

/-! ## One exhaustion cycle -/

theorem cycle_once_hit_target (pool : List TrackItem) (target : ℚ) (st : SelSt) (rng : Nat)
    (h : (cycle_once pool target st rng).2.2 = true) :
    target ≤ (cycle_once pool target st rng).1.total := by
  simp only [cycle_once] at h ⊢
  exact walk_hit_target h

theorem cycle_once_sel (pool : List TrackItem) (target : ℚ) (st : SelSt) (rng : Nat) :
    ∃ ext, (cycle_once pool target st rng).1.sel = st.sel ++ ext := by
  simp only [cycle_once]
  split
  · obtain ⟨k, h⟩ := walk_sel_take
    exact ⟨_, h⟩
  · obtain ⟨k, h⟩ := walk_sel_take
    exact ⟨_, h⟩

theorem cycle_once_nonhit_covers (pool : List TrackItem) (target : ℚ) (st : SelSt) (rng : Nat)
    (h : (cycle_once pool target st rng).2.2 = false) :
    coversPool pool (cycle_once pool target st rng).1.used := by
  simp only [cycle_once] at h ⊢
  by_cases he : (pool.filter (fun it => decide (it.path ∉ st.used))).isEmpty
  · rw [if_pos he] at h ⊢
    obtain ⟨-, -, hused⟩ := walk_false_spec h
    intro it hit
    rw [hused]
    have : it ∈ (pyShuffle rng pool).1 := (pyShuffle_perm rng pool).mem_iff.mpr hit
    exact List.mem_append_left _ (List.mem_reverse.mpr (List.mem_map_of_mem TrackItem.path this))
  · rw [if_neg he] at h ⊢
    obtain ⟨-, -, hused⟩ := walk_false_spec h
    intro it hit
    rw [hused]
    by_cases hu : it.path ∈ st.used
    · exact List.mem_append_right _ hu
    · have hrem : it ∈ pool.filter (fun x => decide (x.path ∉ st.used)) :=
        mem_filter_unused.mpr ⟨hit, hu⟩
      have : it ∈ (pyShuffle rng _).1 := (pyShuffle_perm rng _).mem_iff.mpr hrem
      exact List.mem_append_left _ (List.mem_reverse.mpr (List.mem_map_of_mem TrackItem.path this))

theorem cycle_once_covered_total (pool : List TrackItem) (target : ℚ) (st : SelSt) (rng : Nat)
    (hcov : coversPool pool st.used) (h : (cycle_once pool target st rng).2.2 = false) :
    (cycle_once pool target st rng).1.total = st.total + durSum pool := by
  have hnil : pool.filter (fun it => decide (it.path ∉ st.used)) = [] :=
    filter_unused_eq_nil hcov
  simp only [cycle_once, hnil, List.isEmpty_nil, if_true] at h ⊢
  obtain ⟨-, htot, -⟩ := walk_false_spec h
  rw [htot, durSum_perm (pyShuffle_perm rng pool)]

/-! ## The fuelled while-loop -/

theorem selLoop_some_target (pool : List TrackItem) (target : ℚ) :
    ∀ (fuel : Nat) (st : SelSt) (rng : Nat) (sel : List TrackItem) (tot : ℚ),
      selLoop pool target fuel st rng = some (sel, tot) → target ≤ tot := by
  intro fuel
  induction fuel with
  | zero => intro st rng sel tot h; simp [selLoop] at h
  | succ n ih =>
      intro st rng sel tot h
      rw [selLoop] at h
      by_cases hlt : st.total < target
      · rw [if_pos hlt] at h
        by_cases hhit : (cycle_once pool target st rng).2.2 = true
        · rw [if_pos hhit] at h
          have h2 : (cycle_once pool target st rng).1.total = tot :=
            congrArg Prod.snd (Option.some.inj h)
          rw [← h2]
          exact cycle_once_hit_target pool target st rng hhit
        · rw [if_neg hhit] at h
          exact ih _ _ _ _ h
      · rw [if_neg hlt] at h
        have h2 : st.total = tot := congrArg Prod.snd (Option.some.inj h)
        rw [← h2]
        exact not_lt.mp hlt

theorem selLoop_sel (pool : List TrackItem) (target : ℚ) :
    ∀ (fuel : Nat) (st : SelSt) (rng : Nat) (sel : List TrackItem) (tot : ℚ),
      selLoop pool target fuel st rng = some (sel, tot) → ∃ ext, sel = st.sel ++ ext := by
  intro fuel
  induction fuel with
  | zero => intro st rng sel tot h; simp [selLoop] at h
  | succ n ih =>
      intro st rng sel tot h
      rw [selLoop] at h
      by_cases hlt : st.total < target
      · rw [if_pos hlt] at h
        by_cases hhit : (cycle_once pool target st rng).2.2 = true
        · rw [if_pos hhit] at h
          have h2 : (cycle_once pool target st rng).1.sel = sel :=
            congrArg Prod.fst (Option.some.inj h)
          obtain ⟨ext, hext⟩ := cycle_once_sel pool target st rng
          exact ⟨ext, by rw [← h2, hext]⟩
        · rw [if_neg hhit] at h
          obtain ⟨ext1, hext1⟩ := ih _ _ _ _ h
          obtain ⟨ext0, hext0⟩ := cycle_once_sel pool target st rng
          exact ⟨ext0 ++ ext1, by rw [hext1, hext0, List.append_assoc]⟩
      · rw [if_neg hlt] at h
        have h2 : st.sel = sel := congrArg Prod.fst (Option.some.inj h)
        exact ⟨[], by rw [← h2, List.append_nil]⟩

/-- Enough fuel terminates the loop once every pool path is used and
`k` full-pool cycles suffice to reach the target. -/
theorem selLoop_term (pool : List TrackItem) (target : ℚ) :
    ∀ (k : Nat) (st : SelSt) (rng : Nat), coversPool pool st.used →
      target ≤ st.total + k * durSum pool →
      ∃ r, selLoop pool target (k + 1) st rng = some r := by
  intro k
  induction k with
  | zero =>
      intro st rng _ hb
      refine ⟨(st.sel, st.total), ?_⟩
      rw [selLoop]
      rw [if_neg (not_lt.mpr (by simpa using hb))]
  | succ n ih =>
      intro st rng hcov hb
      rw [selLoop]
      by_cases hlt : st.total < target
      · rw [if_pos hlt]
        by_cases hhit : (cycle_once pool target st rng).2.2 = true
        · rw [if_pos hhit]
          exact ⟨_, rfl⟩
        · rw [if_neg hhit]
          have hhitf : (cycle_once pool target st rng).2.2 = false := by
            simpa using hhit
          have hcov2 : coversPool pool (cycle_once pool target st rng).1.used :=
            cycle_once_nonhit_covers pool target st rng hhitf
          have htot : (cycle_once pool target st rng).1.total = st.total + durSum pool :=
            cycle_once_covered_total pool target st rng hcov hhitf
          apply ih _ _ hcov2
          rw [htot]
          calc target ≤ st.total + ((n : ℚ) + 1) * durSum pool := by
                have : ((n + 1 : ℕ) : ℚ) = (n : ℚ) + 1 := by push_cast; ring
                rw [← this]; exact hb
            _ = st.total + durSum pool + (n : ℚ) * durSum pool := by ring
      · rw [if_neg hlt]
        exact ⟨_, rfl⟩

/-! ## Facts about the phase before the loop -/

theorem preLoop_hit_target (pool : List TrackItem) (target : ℚ) (head : List Pref)
    (cands : Option (List TrackItem)) (seed : Option Nat) (ent : Nat) (mh : Option Int)
    (h : (preLoop pool target head cands seed ent mh).1.2 = true) :
    target ≤ (preLoop pool target head cands seed ent mh).1.1.total := by
  simp only [preLoop] at h ⊢
  exact walk_hit_target h

theorem preLoop_nonhit_covers (pool : List TrackItem) (target : ℚ) (head : List Pref)
    (cands : Option (List TrackItem)) (seed : Option Nat) (ent : Nat) (mh : Option Int)
    (h : (preLoop pool target head cands seed ent mh).1.2 = false) :
    coversPool pool (preLoop pool target head cands seed ent mh).1.1.used := by
  simp only [preLoop] at h ⊢
  obtain ⟨-, -, hused⟩ := walk_false_spec h
  intro it hit
  rw [hused]
  set hp := headPhase ((cands.getD pool)) head mh (initRng seed ent) with hhp
  by_cases hu : it.path ∈ hp.1.2
  · exact List.mem_append_right _ hu
  · have hrem : it ∈ pool.filter (fun x => decide (x.path ∉ hp.1.2)) :=
      mem_filter_unused.mpr ⟨hit, hu⟩
    have hsh : it ∈ (pyShuffle hp.2 (pool.filter (fun x => decide (x.path ∉ hp.1.2)))).1 :=
      (pyShuffle_perm _ _).mem_iff.mpr hrem
    refine List.mem_append_left _ (List.mem_reverse.mpr ?_)
    exact List.mem_map_of_mem TrackItem.path (List.mem_append_right _ hsh)

/-! ## Top-level facts about `build_selection` -/

/-- Whenever `build_selection` returns, the returned total has reached
the target: the first pass returns only on a hit, the loop returns
either on a hit or when the running total is no longer below the
target. -/
theorem build_selection_some_target (fuel : Nat) (pool : List TrackItem) (target : ℚ)
    (head : List Pref) (cands : Option (List TrackItem)) (seed : Option Nat) (ent : Nat)
    (mh : Option Int) (sel : List TrackItem) (tot : ℚ)
    (h : build_selection fuel pool target head cands seed ent mh = some (sel, tot)) :
    target ≤ tot := by
  by_cases hw : (preLoop pool target head cands seed ent mh).1.2 = true
  · rw [build_selection, if_pos hw] at h
    have h2 : (preLoop pool target head cands seed ent mh).1.1.total = tot :=
      congrArg Prod.snd (Option.some.inj h)
    rw [← h2]
    exact preLoop_hit_target pool target head cands seed ent mh hw
  · rw [build_selection, if_neg hw] at h
    exact selLoop_some_target pool target fuel _ _ sel tot h

/-- With a pool of strictly positive total duration, some fuel makes
`build_selection` return. -/
theorem build_selection_terminates (pool : List TrackItem) (target : ℚ)
    (head : List Pref) (cands : Option (List TrackItem)) (seed : Option Nat) (ent : Nat)
    (mh : Option Int) (hpos : 0 < durSum pool) :
    ∃ fuel r, build_selection fuel pool target head cands seed ent mh = some r := by
  by_cases hw : (preLoop pool target head cands seed ent mh).1.2 = true
  · exact ⟨0, _, by rw [build_selection, if_pos hw]⟩
  · have hwf : (preLoop pool target head cands seed ent mh).1.2 = false := by
      simpa using hw
    have hcov := preLoop_nonhit_covers pool target head cands seed ent mh hwf
    obtain ⟨k, hk⟩ : ∃ k : ℕ,
        target ≤ (preLoop pool target head cands seed ent mh).1.1.total + k * durSum pool := by
      obtain ⟨k, hk⟩ := exists_nat_ge
        ((target - (preLoop pool target head cands seed ent mh).1.1.total) / durSum pool)
      refine ⟨k, ?_⟩
      have h2 := (div_le_iff₀ hpos).mp hk
      linarith
    obtain ⟨r, hr⟩ := selLoop_term pool target k
      (preLoop pool target head cands seed ent mh).1.1
      (preLoop pool target head cands seed ent mh).2 hcov hk
    exact ⟨k + 1, r, by rw [build_selection, if_neg hw]; exact hr⟩

/-- The sublist of the first pass actually walked, as a take of
`head ++ shuffled-tail`, starting from the empty selection. -/
theorem preLoop_sel_take (pool : List TrackItem) (target : ℚ) (head : List Pref)
    (cands : Option (List TrackItem)) (seed : Option Nat) (ent : Nat) (mh : Option Int) :
    ∃ k, (preLoop pool target head cands seed ent mh).1.1.sel =
        ((headPhase (cands.getD pool) head mh (initRng seed ent)).1.1 ++
          (pyShuffle (headPhase (cands.getD pool) head mh (initRng seed ent)).2
            (pool.filter (fun it =>
              decide (it.path ∉ (headPhase (cands.getD pool) head mh (initRng seed ent)).1.2)))).1).take k ∧
      ((preLoop pool target head cands seed ent mh).1.2 = false →
        k = ((headPhase (cands.getD pool) head mh (initRng seed ent)).1.1 ++
          (pyShuffle (headPhase (cands.getD pool) head mh (initRng seed ent)).2
            (pool.filter (fun it =>
              decide (it.path ∉ (headPhase (cands.getD pool) head mh (initRng seed ent)).1.2)))).1).length) := by
  simp only [preLoop]
  obtain ⟨k, hk, hsel, _, _, _, hmiss⟩ := walk_spec target
    ((headPhase (cands.getD pool) head mh (initRng seed ent)).1.1 ++
      (pyShuffle (headPhase (cands.getD pool) head mh (initRng seed ent)).2
        (pool.filter (fun it =>
          decide (it.path ∉ (headPhase (cands.getD pool) head mh (initRng seed ent)).1.2)))).1)
    ⟨[], 0, (headPhase (cands.getD pool) head mh (initRng seed ent)).1.2⟩
  exact ⟨k, by simpa using hsel, hmiss⟩

/-- The walk preserves the difference between the running total and
the duration of the accumulated selection. -/
theorem walk_invariant {target : ℚ} {l : List TrackItem} {st : SelSt} :
    (walk target l st).1.total - durSum (walk target l st).1.sel =
      st.total - durSum st.sel := by
  obtain ⟨k, -, hsel, htot, -, -, -⟩ := walk_spec target l st
  rw [hsel, htot, durSum_append]
  ring

theorem cycle_once_invariant (pool : List TrackItem) (target : ℚ) (st : SelSt) (rng : Nat) :
    (cycle_once pool target st rng).1.total - durSum (cycle_once pool target st rng).1.sel =
      st.total - durSum st.sel := by
  simp only [cycle_once]
  split
  · exact walk_invariant
  · exact walk_invariant

theorem selLoop_invariant (pool : List TrackItem) (target : ℚ) :
    ∀ (fuel : Nat) (st : SelSt) (rng : Nat) (sel : List TrackItem) (tot : ℚ),
      selLoop pool target fuel st rng = some (sel, tot) →
      tot - durSum sel = st.total - durSum st.sel := by
  intro fuel
  induction fuel with
  | zero => intro st rng sel tot h; simp [selLoop] at h
  | succ n ih =>
      intro st rng sel tot h
      rw [selLoop] at h
      by_cases hlt : st.total < target
      · rw [if_pos hlt] at h
        by_cases hhit : (cycle_once pool target st rng).2.2 = true
        · rw [if_pos hhit] at h
          have h1 : (cycle_once pool target st rng).1.sel = sel :=
            congrArg Prod.fst (Option.some.inj h)
          have h2 : (cycle_once pool target st rng).1.total = tot :=
            congrArg Prod.snd (Option.some.inj h)
          rw [← h1, ← h2]
          exact cycle_once_invariant pool target st rng
        · rw [if_neg hhit] at h
          rw [ih _ _ _ _ h]
          exact cycle_once_invariant pool target st rng
      · rw [if_neg hlt] at h
        have h1 : st.sel = sel := congrArg Prod.fst (Option.some.inj h)
        have h2 : st.total = tot := congrArg Prod.snd (Option.some.inj h)
        rw [← h1, ← h2]

/-- No truncation: whatever `build_selection` returns, the total is
exactly the duration sum of the returned selection. -/
theorem build_selection_total_eq_durSum (fuel : Nat) (pool : List TrackItem) (target : ℚ)
    (head : List Pref) (cands : Option (List TrackItem)) (seed : Option Nat) (ent : Nat)
    (mh : Option Int) (sel : List TrackItem) (tot : ℚ)
    (h : build_selection fuel pool target head cands seed ent mh = some (sel, tot)) :
    tot = durSum sel := by
  have hpre : (preLoop pool target head cands seed ent mh).1.1.total -
      durSum (preLoop pool target head cands seed ent mh).1.1.sel = 0 := by
    simp only [preLoop]
    rw [walk_invariant]
    simp [durSum]
  by_cases hw : (preLoop pool target head cands seed ent mh).1.2 = true
  · rw [build_selection, if_pos hw] at h
    have h1 : (preLoop pool target head cands seed ent mh).1.1.sel = sel :=
      congrArg Prod.fst (Option.some.inj h)
    have h2 : (preLoop pool target head cands seed ent mh).1.1.total = tot :=
      congrArg Prod.snd (Option.some.inj h)
    rw [← h1, ← h2]
    linarith [hpre]
  · rw [build_selection, if_neg hw] at h
    have := selLoop_invariant pool target fuel _ _ sel tot h
    rw [hpre] at this
    linarith [this]

/-! ## Concrete clip records used by witnesses and counterexamples -/

/-- A psalm-23 record of 10 seconds (the repository's own test data). -/
def itemPs23 : TrackItem :=
  ⟨"ps23.mp3", "psalm", some 23, none, none, true, "psalm 23", 10⟩

/-- A psalm-91 record of 12 seconds. -/
def itemPs91 : TrackItem :=
  ⟨"ps91.mp3", "psalm", some 91, none, none, true, "psalm 91", 12⟩

/-- A Mark-4 gospel record of 15 seconds. -/
def itemMark4 : TrackItem :=
  ⟨"mark4.mp3", "gospel", none, some "marc", some 4, true, "Marc 4", 15⟩

/-- A record sharing `itemPs23`'s path but lasting only 1 second. -/
def itemPs23Short : TrackItem :=
  ⟨"ps23.mp3", "psalm", some 23, none, none, true, "psalm 23", 1⟩

/-! ## Claim C1 -/

/-- C1: for every pool of strictly positive total duration and every
positive target, `build_selection` returns (for sufficient fuel) and
every value it returns carries a total at least the target — the total
may overshoot, and it equals the duration sum of the returned
selection exactly (the final added clip is never truncated). -/
theorem build_selection_duration_sufficiency
    (pool : List TrackItem) (target : ℚ) (head : List Pref)
    (cands : Option (List TrackItem)) (seed : Option Nat) (ent : Nat) (mh : Option Int)
    (hpos : 0 < durSum pool) (htgt : 0 < target) :
    (∀ fuel sel tot, build_selection fuel pool target head cands seed ent mh = some (sel, tot) →
      target ≤ tot ∧ tot = durSum sel) ∧
    ∃ fuel r, build_selection fuel pool target head cands seed ent mh = some r :=
  ⟨fun fuel sel tot h =>
      ⟨build_selection_some_target fuel pool target head cands seed ent mh sel tot h,
        build_selection_total_eq_durSum fuel pool target head cands seed ent mh sel tot h⟩,
   build_selection_terminates pool target head cands seed ent mh hpos⟩

theorem build_selection_duration_sufficiency_witness :
    0 < durSum [itemPs23, itemPs91] ∧ 0 < (3 : ℚ) ∧
    ((∀ fuel sel tot,
        build_selection fuel [itemPs23, itemPs91] 3 [] none (some 7) 0 none = some (sel, tot) →
        3 ≤ tot ∧ tot = durSum sel) ∧
      ∃ fuel r, build_selection fuel [itemPs23, itemPs91] 3 [] none (some 7) 0 none = some r) :=
  ⟨by decide, by decide,
    build_selection_duration_sufficiency [itemPs23, itemPs91] 3 [] none (some 7) 0 none
      (by decide) (by decide)⟩

/-! ## Claim C2 -/

/-- C2 counterexample: two calls with identical `pool_items`,
`target_seconds`, `preferred_head`, `preferred_candidates` and `seed`
(both `None`) disagree, because `random.Random(None)` seeds from
operating-system entropy (modelled by the explicit entropy argument,
`0` for the first call and `1` for the second). -/
theorem build_selection_determinism_counterexample :
    build_selection 1 [itemPs23, itemPs91] 22 [] none none 0 none ≠
      build_selection 1 [itemPs23, itemPs91] 22 [] none none 1 none := by decide

/-- C2 (amended): with an integer (non-`None`) seed the result is
independent of the ambient entropy — two calls with identical pool,
target, preferences and seed return identical selections and totals. -/
theorem build_selection_determinism_seeded (fuel : Nat) (pool : List TrackItem) (target : ℚ)
    (head : List Pref) (cands : Option (List TrackItem)) (s : Nat) (ent1 ent2 : Nat)
    (mh : Option Int) :
    build_selection fuel pool target head cands (some s) ent1 mh =
      build_selection fuel pool target head cands (some s) ent2 mh := rfl

/-! ## Claim C3 -/

/-- On the empty pool the loop never finishes: each cycle finds no
remaining item, resets the used set and walks an empty list. -/
theorem selLoop_nil (target : ℚ) :
    ∀ (fuel : Nat) (st : SelSt) (rng : Nat), st.total < target →
      selLoop [] target fuel st rng = none := by
  intro fuel
  induction fuel with
  | zero => intro st rng _; rfl
  | succ n ih =>
      intro st rng hlt
      have hc : cycle_once [] target st rng = (⟨st.sel, st.total, []⟩, rng, false) := rfl
      rw [selLoop, if_pos hlt, hc]
      exact ih ⟨st.sel, st.total, []⟩ rng hlt

/-- C3 counterexample: an empty pool with positive target *can*
terminate — a preferred-head token resolved against non-empty
`preferred_candidates` lets the first pass reach the target, so the
exhaustion loop is never entered (fuel 0 suffices). -/
theorem build_selection_empty_pool_counterexample :
    build_selection 0 [] 1 [Pref.int 23] (some [itemPs23]) (some 0) 0 none =
      some ([itemPs23], 10) := by decide

/-- C3 (amended): `build_selection` terminates for every pool of
strictly positive total duration; for an empty pool and a positive
target it never terminates **provided the preferred head resolves to
no clip** (in particular with the default empty preferences) — with a
resolving head the first pass may return. -/
theorem build_selection_termination :
    (∀ (pool : List TrackItem) (target : ℚ) (head : List Pref)
        (cands : Option (List TrackItem)) (seed : Option Nat) (ent : Nat) (mh : Option Int),
        0 < durSum pool →
        ∃ fuel r, build_selection fuel pool target head cands seed ent mh = some r) ∧
    (∀ (target : ℚ) (head : List Pref) (cands : Option (List TrackItem))
        (seed : Option Nat) (ent : Nat) (mh : Option Int) (fuel : Nat),
        0 < target →
        (headPhase (cands.getD []) head mh (initRng seed ent)).1.1 = [] →
        build_selection fuel [] target head cands seed ent mh = none) := by
  constructor
  · intro pool target head cands seed ent mh hpos
    exact build_selection_terminates pool target head cands seed ent mh hpos
  · intro target head cands seed ent mh fuel htgt hhead
    have hpre : preLoop [] target head cands seed ent mh =
        ((⟨[], 0, (headPhase (cands.getD []) head mh (initRng seed ent)).1.2⟩, false),
          (headPhase (cands.getD []) head mh (initRng seed ent)).2) := by
      simp only [preLoop, List.filter_nil]
      rw [hhead]
      rfl
    rw [build_selection, hpre]
    simp only [Bool.false_eq_true, if_false]
    exact selLoop_nil target fuel _ _ (by simpa using htgt)

theorem build_selection_termination_witness :
    0 < durSum [itemPs23] ∧
    (∃ fuel r, build_selection fuel [itemPs23] 100 [] none none 5 none = some r) ∧
    0 < (7 : ℚ) ∧
    (headPhase (([] : List TrackItem)) [Pref.int 42] none (initRng none 3)).1.1 = [] ∧
    build_selection 4 [] 7 [Pref.int 42] none none 3 none = none :=
  ⟨by decide,
   build_selection_termination.1 [itemPs23] 100 [] none none 5 none (by decide),
   by decide, by decide,
   build_selection_termination.2 7 [Pref.int 42] none none 3 none 4 (by decide) (by decide)⟩

/-! ## Claim C4 -/

/-- C4: whenever `build_selection` returns, the returned selection is
the resolved head followed by fill items (possibly cut short inside
the head when the target is already reached there): there are `k` and
`rest` with `sel = head.take k ++ rest`, and any non-head material
(`rest ≠ []`) implies the whole resolved head is a prefix.  This holds
for every seed and entropy. -/
theorem build_selection_preference_ordering
    (fuel : Nat) (pool : List TrackItem) (target : ℚ) (head : List Pref)
    (cands : Option (List TrackItem)) (seed : Option Nat) (ent : Nat) (mh : Option Int)
    (sel : List TrackItem) (tot : ℚ)
    (hhead : head ≠ [])
    (hres : (headPhase (cands.getD pool) head mh (initRng seed ent)).1.1 ≠ [])
    (hsome : build_selection fuel pool target head cands seed ent mh = some (sel, tot)) :
    ∃ k rest,
      sel = (headPhase (cands.getD pool) head mh (initRng seed ent)).1.1.take k ++ rest ∧
      (rest = [] ∨ (headPhase (cands.getD pool) head mh (initRng seed ent)).1.1.length ≤ k) := by
  obtain ⟨k, hsel, hfull⟩ := preLoop_sel_take pool target head cands seed ent mh
  by_cases hw : (preLoop pool target head cands seed ent mh).1.2 = true
  · rw [build_selection, if_pos hw] at hsome
    have h2 : (preLoop pool target head cands seed ent mh).1.1.sel = sel :=
      congrArg Prod.fst (Option.some.inj hsome)
    rw [← h2, hsel, List.take_append_eq_append_take]
    rcases le_or_lt k (headPhase (cands.getD pool) head mh (initRng seed ent)).1.1.length with hle | hgt
    · refine ⟨k, _, rfl, Or.inl ?_⟩
      have : k - (headPhase (cands.getD pool) head mh (initRng seed ent)).1.1.length = 0 :=
        Nat.sub_eq_zero_of_le hle
      rw [this, List.take_zero]
    · exact ⟨k, _, rfl, Or.inr hgt.le⟩
  · rw [build_selection, if_neg hw] at hsome
    obtain ⟨ext, hext⟩ := selLoop_sel pool target fuel _ _ sel tot hsome
    have hk := hfull (by simpa using hw)
    rw [hk, List.take_length] at hsel
    refine ⟨(headPhase (cands.getD pool) head mh (initRng seed ent)).1.1.length,
      (pyShuffle (headPhase (cands.getD pool) head mh (initRng seed ent)).2
        (pool.filter (fun it =>
          decide (it.path ∉ (headPhase (cands.getD pool) head mh (initRng seed ent)).1.2)))).1 ++ ext,
      ?_, Or.inr le_rfl⟩
    rw [hext, hsel, List.take_length, List.append_assoc]

theorem build_selection_preference_ordering_witness :
    ([Pref.int 23] ≠ ([] : List Pref)) ∧
    ((headPhase ((none : Option (List TrackItem)).getD [itemPs23, itemPs91]) [Pref.int 23] none
        (initRng (some 5) 0)).1.1 ≠ []) ∧
    (build_selection 0 [itemPs23, itemPs91] 3 [Pref.int 23] none (some 5) 0 none =
      some ([itemPs23], 10)) ∧
    ∃ k rest,
      [itemPs23] = (headPhase ((none : Option (List TrackItem)).getD [itemPs23, itemPs91])
        [Pref.int 23] none (initRng (some 5) 0)).1.1.take k ++ rest ∧
      (rest = [] ∨ (headPhase ((none : Option (List TrackItem)).getD [itemPs23, itemPs91])
        [Pref.int 23] none (initRng (some 5) 0)).1.1.length ≤ k) :=
  ⟨by decide, by decide, by decide,
    build_selection_preference_ordering 0 [itemPs23, itemPs91] 3 [Pref.int 23] none (some 5) 0
      none [itemPs23] 10 (by decide) (by decide) (by decide)⟩

/-! ## The head phase resolves to distinct candidate clips -/

/-- What `resolveTokens` guarantees relative to its accumulators: the
head grows by resolved candidates, the used set tracks exactly the
added paths, and (when the accumulators are consistent) head paths
stay distinct and used. -/
def RTSpec (cands : List TrackItem) (head : List TrackItem) (used : List String)
    (out : List TrackItem × List String) : Prop :=
  ∃ add, out.1 = head ++ add ∧ (∀ a ∈ add, a ∈ cands) ∧
    (∀ p, p ∈ out.2 ↔ p ∈ used ∨ p ∈ add.map TrackItem.path) ∧
    ((head.map TrackItem.path).Nodup → (∀ h ∈ head, h.path ∈ used) →
      (((head ++ add).map TrackItem.path).Nodup ∧ ∀ h ∈ head ++ add, h.path ∈ out.2))

/-- Absorb one appended candidate into the accumulator view. -/
theorem RTSpec_extend {cands : List TrackItem} {head : List TrackItem} {used : List String}
    {c : TrackItem} {out : List TrackItem × List String}
    (hcmem : c ∈ cands) (hc : c.path ∉ used)
    (h : RTSpec cands (head ++ [c]) (c.path :: used) out) : RTSpec cands head used out := by
  obtain ⟨add1, h1, h2, h3, h4⟩ := h
  refine ⟨c :: add1, ?_, ?_, ?_, ?_⟩
  · rw [h1, List.append_assoc]
    rfl
  · intro a ha
    rcases List.mem_cons.mp ha with rfl | ha
    · exact hcmem
    · exact h2 a ha
  · intro p
    rw [h3 p]
    simp only [List.mem_cons, List.map_cons]
    tauto
  · intro hnd hhu
    have hcp : c.path ∉ head.map TrackItem.path := by
      intro hmem
      obtain ⟨h0, hh0, he⟩ := List.mem_map.mp hmem
      exact hc (he ▸ hhu h0 hh0)
    have hnd2 : ((head ++ [c]).map TrackItem.path).Nodup := by
      rw [List.map_append]
      rw [List.nodup_append]
      exact ⟨hnd, List.nodup_singleton _, by simpa [List.disjoint_singleton] using hcp⟩
    have hhu2 : ∀ h0 ∈ head ++ [c], h0.path ∈ c.path :: used := by
      intro h0 hh0
      rcases List.mem_append.mp hh0 with hh0 | hh0
      · exact List.mem_cons_of_mem _ (hhu h0 hh0)
      · rcases List.mem_singleton.mp hh0 with rfl
        exact List.mem_cons_self _ _
    obtain ⟨hnodup, hin⟩ := h4 hnd2 hhu2
    rw [List.append_cons]
    exact ⟨hnodup, hin⟩

theorem resolveTokens_spec (cands : List TrackItem) :
    ∀ (toks : List Pref) (head : List TrackItem) (used : List String),
      RTSpec cands head used (resolveTokens cands toks head used) := by
  intro toks
  induction toks with
  | nil =>
      intro head used
      exact ⟨[], by simp [resolveTokens], by simp, by simp [resolveTokens], by
        intro hnd hhu
        refine ⟨by simpa using hnd, ?_⟩
        intro h hh
        simp only [resolveTokens]
        exact hhu h (by simpa using hh)⟩
  | cons tok rest ih =>
      intro head used
      cases tok with
      | int n =>
          cases hb : byPsalm cands n with
          | none =>
              simp only [resolveTokens, hb]
              exact ih head used
          | some c =>
              by_cases hc : c.path ∈ used
              · simp only [resolveTokens, hb, if_pos hc]
                exact ih head used
              · simp only [resolveTokens, hb, if_neg hc]
                exact RTSpec_extend (List.mem_of_find?_eq_some hb) hc (ih _ _)
      | str s =>
          cases hp : parse_gospel_ref s with
          | none =>
              simp only [resolveTokens, hp]
              exact ih head used
          | some g =>
              by_cases hg : g.1 ≠ "" ∧ g.2 ≠ 0
              · cases hbg : byGospel cands g.1 g.2 with
                | none =>
                    simp only [resolveTokens, hp, if_pos hg, hbg]
                    exact ih head used
                | some c =>
                    by_cases hc : c.path ∈ used
                    · simp only [resolveTokens, hp, if_pos hg, hbg, if_pos hc]
                      exact ih head used
                    · simp only [resolveTokens, hp, if_pos hg, hbg, if_neg hc]
                      exact RTSpec_extend (List.mem_of_find?_eq_some hbg) hc (ih _ _)
              · simp only [resolveTokens, hp, if_neg hg]
                exact ih head used

/-- Structure of the resolved head: distinct paths, candidates only,
and a used set holding exactly the head paths. -/
theorem headPhase_spec (cands : List TrackItem) (toks : List Pref) (mh : Option Int) (rng : Nat) :
    ((headPhase cands toks mh rng).1.1.map TrackItem.path).Nodup ∧
    (∀ h ∈ (headPhase cands toks mh rng).1.1, h ∈ cands) ∧
    (∀ p, p ∈ (headPhase cands toks mh rng).1.2 ↔
      p ∈ (headPhase cands toks mh rng).1.1.map TrackItem.path) := by
  rw [headPhase]
  by_cases he : toks.isEmpty
  · rw [if_pos he]
    refine ⟨List.nodup_nil, by simp, by simp⟩
  · rw [if_neg he]
    obtain ⟨add, h1, h2, h3, h4⟩ :=
      resolveTokens_spec cands (truncHead mh (pyShuffle rng toks).1) [] []
    obtain ⟨hnodup, -⟩ := h4 List.nodup_nil (by simp)
    rw [List.nil_append] at h1 hnodup
    refine ⟨by rw [h1]; exact hnodup, ?_, ?_⟩
    · intro h hh
      rw [h1] at hh
      exact h2 h hh
    · intro p
      rw [h3 p, h1]
      simp

/-! ## Duration bookkeeping for the first pass -/

theorem durSum_filter_partition (p : TrackItem → Bool) (l : List TrackItem) :
    durSum (l.filter p) + durSum (l.filter (fun x => !(p x))) = durSum l := by
  induction l with
  | nil => simp [durSum]
  | cons it rest ih =>
      cases hp : p it <;>
        simp only [List.filter_cons, hp, Bool.not_true, Bool.not_false, if_pos, if_neg,
          Bool.false_eq_true, ite_true, ite_false, durSum, qAdd_eq] <;>
        rw [← ih] <;> ring

/-- With distinct pool paths, the resolved head (when drawn from the
pool) is a permutation of the pool records whose path it used. -/
theorem head_perm_filter {pool head : List TrackItem} {used0 : List String}
    (hndPool : (pool.map TrackItem.path).Nodup)
    (hndHead : (head.map TrackItem.path).Nodup)
    (hsub : ∀ h ∈ head, h ∈ pool)
    (hiff : ∀ p, p ∈ used0 ↔ p ∈ head.map TrackItem.path) :
    head.Perm (pool.filter (fun it => decide (it.path ∈ used0))) := by
  rw [List.perm_ext_iff_of_nodup (hndHead.of_map) ((hndPool.of_map).filter _)]
  intro x
  constructor
  · intro hx
    rw [List.mem_filter]
    refine ⟨hsub x hx, ?_⟩
    simp only [decide_eq_true_eq]
    exact (hiff x.path).mpr (List.mem_map_of_mem TrackItem.path hx)
  · intro hx
    rw [List.mem_filter] at hx
    obtain ⟨hxp, hxu⟩ := hx
    simp only [decide_eq_true_eq] at hxu
    obtain ⟨h0, hh0, he⟩ := List.mem_map.mp ((hiff x.path).mp hxu)
    have : h0 = x := List.inj_on_of_nodup_map hndPool (hsub h0 hh0) hxp he
    exact this ▸ hh0

/-- When the first pass misses the target its total is the whole
duration of `head ++ shuffled-tail`. -/
theorem preLoop_nonhit_total (pool : List TrackItem) (target : ℚ) (head : List Pref)
    (cands : Option (List TrackItem)) (seed : Option Nat) (ent : Nat) (mh : Option Int)
    (h : (preLoop pool target head cands seed ent mh).1.2 = false) :
    (preLoop pool target head cands seed ent mh).1.1.total =
      durSum ((headPhase (cands.getD pool) head mh (initRng seed ent)).1.1 ++
        (pyShuffle (headPhase (cands.getD pool) head mh (initRng seed ent)).2
          (pool.filter (fun it =>
            decide (it.path ∉ (headPhase (cands.getD pool) head mh (initRng seed ent)).1.2)))).1) := by
  simp only [preLoop] at h ⊢
  obtain ⟨-, htot, -⟩ := walk_false_spec h
  rw [htot, zero_add]

/-- The total duration of the first pass equals the pool total,
provided pool paths are distinct and the preferred candidates are
drawn from the pool. -/
theorem firstPass_durSum (pool : List TrackItem) (head : List Pref)
    (cands : Option (List TrackItem)) (seed : Option Nat) (ent : Nat) (mh : Option Int)
    (hnd : (pool.map TrackItem.path).Nodup)
    (hsub : ∀ x ∈ cands.getD pool, x ∈ pool) :
    durSum ((headPhase (cands.getD pool) head mh (initRng seed ent)).1.1 ++
      (pyShuffle (headPhase (cands.getD pool) head mh (initRng seed ent)).2
        (pool.filter (fun it =>
          decide (it.path ∉ (headPhase (cands.getD pool) head mh (initRng seed ent)).1.2)))).1) =
      durSum pool := by
  obtain ⟨hndH, hsubH, hiff⟩ :=
    headPhase_spec (cands.getD pool) head mh (initRng seed ent)
  have hsubHP : ∀ h ∈ (headPhase (cands.getD pool) head mh (initRng seed ent)).1.1, h ∈ pool :=
    fun h hh => hsub h (hsubH h hh)
  have hperm := head_perm_filter hnd hndH hsubHP hiff
  rw [durSum_append, durSum_perm (pyShuffle_perm _ _), durSum_perm hperm]
  have hpred : (fun it : TrackItem =>
      decide (it.path ∉ (headPhase (cands.getD pool) head mh (initRng seed ent)).1.2)) =
      (fun it : TrackItem =>
        !(decide (it.path ∈ (headPhase (cands.getD pool) head mh (initRng seed ent)).1.2))) := by
    funext it
    simp
  rw [hpred]
  exact durSum_filter_partition _ pool

/-- Distinctness of the first-pass paths. -/
theorem firstPass_nodup (pool : List TrackItem) (head : List Pref)
    (cands : Option (List TrackItem)) (seed : Option Nat) (ent : Nat) (mh : Option Int)
    (hnd : (pool.map TrackItem.path).Nodup) :
    (((headPhase (cands.getD pool) head mh (initRng seed ent)).1.1 ++
      (pyShuffle (headPhase (cands.getD pool) head mh (initRng seed ent)).2
        (pool.filter (fun it =>
          decide (it.path ∉ (headPhase (cands.getD pool) head mh (initRng seed ent)).1.2)))).1).map
      TrackItem.path).Nodup := by
  obtain ⟨hndH, -, hiff⟩ :=
    headPhase_spec (cands.getD pool) head mh (initRng seed ent)
  rw [List.map_append, List.nodup_append]
  have hpermT := (pyShuffle_perm
    ((headPhase (cands.getD pool) head mh (initRng seed ent)).2)
    (pool.filter (fun it =>
      decide (it.path ∉ (headPhase (cands.getD pool) head mh (initRng seed ent)).1.2)))).map
    TrackItem.path
  refine ⟨hndH, ?_, ?_⟩
  · refine hpermT.nodup_iff.mpr ?_
    exact ((List.filter_sublist pool).map TrackItem.path).nodup hnd
  · intro p hpH hpT
    obtain ⟨itT, hitT, heT⟩ := List.mem_map.mp (hpermT.mem_iff.mp hpT)
    rw [List.mem_filter] at hitT
    have : itT.path ∉ (headPhase (cands.getD pool) head mh (initRng seed ent)).1.2 := by
      simpa using hitT.2
    exact this ((hiff itT.path).mpr (heT ▸ hpH))

/-! ## Claim C5 -/

/-- C5 counterexample: pool total (10) reaches the target (10) and the
single pool record has a distinct path, yet the returned selection
repeats `"ps23.mp3"`.  The preferred candidate list carries a record
with the pool path but a shorter duration (1s), so the first pass ends
short of the target and the exhaustion loop recycles the pool. -/
theorem build_selection_no_duplicates_counterexample :
    (10 : ℚ) ≤ durSum [itemPs23] ∧
    ([itemPs23].map TrackItem.path).Nodup ∧
    build_selection 1 [itemPs23] 10 [Pref.int 23] (some [itemPs23Short]) (some 0) 0 none =
      some ([itemPs23Short, itemPs23], 11) ∧
    ¬ (([itemPs23Short, itemPs23].map TrackItem.path).Nodup) := by
  refine ⟨by decide, by decide, by decide, by decide⟩

/-- C5 (amended): if pool total duration reaches the target, pool
paths are distinct, **and the preferred candidates are records of the
pool** (as in `build_playlist`, where candidates are the psalms and
the pool is psalms + gospels), the returned selection has no repeated
path.  Without the candidate condition a head item can shadow a pool
path while contributing a different duration, forcing a recycle. -/
theorem build_selection_no_duplicates
    (fuel : Nat) (pool : List TrackItem) (target : ℚ) (head : List Pref)
    (cands : Option (List TrackItem)) (seed : Option Nat) (ent : Nat) (mh : Option Int)
    (sel : List TrackItem) (tot : ℚ)
    (hnd : (pool.map TrackItem.path).Nodup)
    (htot : target ≤ durSum pool)
    (hsub : ∀ x ∈ cands.getD pool, x ∈ pool)
    (hsome : build_selection fuel pool target head cands seed ent mh = some (sel, tot)) :
    (sel.map TrackItem.path).Nodup := by
  have hfpnd := firstPass_nodup pool head cands seed ent mh hnd
  obtain ⟨k, hsel, hfull⟩ := preLoop_sel_take pool target head cands seed ent mh
  by_cases hw : (preLoop pool target head cands seed ent mh).1.2 = true
  · rw [build_selection, if_pos hw] at hsome
    have h2 : (preLoop pool target head cands seed ent mh).1.1.sel = sel :=
      congrArg Prod.fst (Option.some.inj hsome)
    rw [← h2, hsel]
    exact hfpnd.sublist ((List.take_sublist _ _).map TrackItem.path)
  · have hwf : (preLoop pool target head cands seed ent mh).1.2 = false := by simpa using hw
    rw [build_selection, if_neg hw] at hsome
    have hst : (preLoop pool target head cands seed ent mh).1.1.total = durSum pool := by
      rw [preLoop_nonhit_total pool target head cands seed ent mh hwf]
      exact firstPass_durSum pool head cands seed ent mh hnd hsub
    have hnotlt : ¬ (preLoop pool target head cands seed ent mh).1.1.total < target := by
      rw [hst]
      exact not_lt.mpr htot
    cases fuel with
    | zero => exact absurd hsome (by simp [selLoop])
    | succ n =>
        rw [selLoop, if_neg hnotlt] at hsome
        have h2 : (preLoop pool target head cands seed ent mh).1.1.sel = sel :=
          congrArg Prod.fst (Option.some.inj hsome)
        rw [← h2, hsel, hfull hwf, List.take_length]
        exact hfpnd

theorem build_selection_no_duplicates_witness :
    ([itemPs23, itemPs91, itemMark4].map TrackItem.path).Nodup ∧
    (37 : ℚ) ≤ durSum [itemPs23, itemPs91, itemMark4] ∧
    (∀ x ∈ (some [itemPs23]).getD [itemPs23, itemPs91, itemMark4],
      x ∈ [itemPs23, itemPs91, itemMark4]) ∧
    build_selection 1 [itemPs23, itemPs91, itemMark4] 37 [Pref.int 23] (some [itemPs23])
      (some 1) 0 none = some ([itemPs23, itemPs91, itemMark4], 37) ∧
    (([itemPs23, itemPs91, itemMark4].map TrackItem.path).Nodup) :=
  ⟨by decide, by decide, by decide, by decide,
    build_selection_no_duplicates 1 [itemPs23, itemPs91, itemMark4] 37 [Pref.int 23]
      (some [itemPs23]) (some 1) 0 none [itemPs23, itemPs91, itemMark4] 37
      (by decide) (by decide) (by decide) (by decide)⟩

/-! ## Claim C6 -/

theorem pyMax0_nonneg (q : ℚ) : 0 ≤ pyMax0 q := by
  unfold pyMax0
  split
  · exact le_refl 0
  · next h => exact (not_le.mp h).le

theorem effectiveDursAux_shift (off : ℚ) :
    ∀ (durs : List ℚ) (k : Nat), effectiveDursAux off (k + 2) durs = durs := by
  intro durs
  induction durs with
  | nil => intro k; rfl
  | cons d rest ih =>
      intro k
      have hne : ¬(k + 2 = 1 ∧ 0 < off) := fun hc => by omega
      have h2 : k + 2 + 1 = (k + 1) + 2 := by omega
      simp only [effectiveDursAux, effectiveDur, if_neg hne, h2, ih (k + 1)]

/-- C6: an `offset_first_seconds` larger than the first track's
(non-negative) duration clamps that track's effective duration to
exactly 0 — never a negative value — and leaves the effective duration
of every other track untouched. -/
theorem write_chapters_offset_clamp (off d : ℚ) (rest : List ℚ)
    (hd : 0 ≤ d) (hoff : d < off) :
    effectiveDurs off (d :: rest) = 0 :: rest := by
  have hoffpos : 0 < off := lt_of_le_of_lt hd hoff
  have hclamp : pyMax0 off = off := by
    unfold pyMax0
    rw [if_neg (not_le.mpr hoffpos)]
  unfold effectiveDurs
  rw [hclamp]
  have h1 : effectiveDur off 1 d = 0 := by
    unfold effectiveDur
    rw [if_pos ⟨rfl, hoffpos⟩, qSub_eq]
    unfold pyMax0
    rw [if_pos (by linarith)]
  simp only [effectiveDursAux, h1]
  exact congrArg (0 :: ·) (effectiveDursAux_shift off rest 0)

theorem write_chapters_offset_clamp_witness :
    (0 : ℚ) ≤ 3 ∧ (3 : ℚ) < 5 ∧ effectiveDurs 5 [3, 7] = [0, 7] :=
  ⟨by decide, by decide, write_chapters_offset_clamp 5 3 [7] (by decide) (by decide)⟩

/-! ## Claim C7 -/

theorem ratFloor_eq_intFloor (q : ℚ) : Rat.floor q = Int.floor q :=
  (Rat.floor_def' q).trans Rat.floor_def.symm

theorem secOfQ_lt {q : ℚ} (h : q < 86400) : secOfQ q < 86400 := by
  unfold secOfQ pyMax0
  split
  · decide
  · next hq =>
      have h2 : Rat.floor q < 86400 := by
        rw [ratFloor_eq_intFloor]
        exact_mod_cast Int.floor_lt.mpr (by exact_mod_cast h)
      omega

theorem timedeltaRepr_hms {n : Nat} (h : n < 86400) : timedeltaRepr n = hmsRepr n := by
  unfold timedeltaRepr hmsRepr
  rw [Nat.div_eq_of_lt h, Nat.mod_eq_of_lt h]
  rfl

theorem format_ts_hms {q : ℚ} (h : q < 86400) : format_ts q = hmsRepr (secOfQ q) :=
  timedeltaRepr_hms (secOfQ_lt h)

theorem effectiveDur_nonneg (off : ℚ) (idx : Nat) {d : ℚ} (hd : 0 ≤ d) :
    0 ≤ effectiveDur off idx d := by
  unfold effectiveDur
  split
  · exact pyMax0_nonneg _
  · exact hd

theorem chapterEntries_mono (off : ℚ) :
    ∀ (tracks : List (ℚ × String)) (idx : Nat) (t : ℚ),
      (∀ p ∈ tracks, 0 ≤ p.1) →
      List.Chain' (· ≤ ·) ((chapterEntries off idx t tracks).map Prod.fst) ∧
      (∀ e ∈ chapterEntries off idx t tracks, t ≤ e.1) := by
  intro tracks
  induction tracks with
  | nil => intro idx t _; exact ⟨by simp [chapterEntries], by simp [chapterEntries]⟩
  | cons p rest ih =>
      intro idx t hd
      obtain ⟨d, label⟩ := p
      have hd0 : (0 : ℚ) ≤ d := hd (d, label) (List.mem_cons_self _ _)
      have hstep : t ≤ qAdd t (effectiveDur off idx d) := by
        rw [qAdd_eq]
        have := effectiveDur_nonneg off idx hd0
        linarith
      obtain ⟨ihc, ihb⟩ := ih (idx + 1) (qAdd t (effectiveDur off idx d))
        (fun q hq => hd q (List.mem_cons_of_mem _ hq))
      constructor
      · simp only [chapterEntries, List.map_cons]
        rw [List.chain'_cons']
        refine ⟨?_, ihc⟩
        intro b hb
        obtain ⟨e, he, hee⟩ := List.mem_map.mp (List.mem_of_mem_head? hb)
        exact hee ▸ le_trans hstep (ihb e he)
      · intro e he
        simp only [chapterEntries] at he
        rcases List.mem_cons.mp he with rfl | he
        · exact le_refl t
        · exact le_trans hstep (ihb e he)

/-- C7 counterexample: with a cumulative timestamp of one day the
emitted line is `1 day, 0:00:00 - B`, not the `H:MM:SS` rendering
`24:00:00 - B` the claim asserts for every non-negative track list
(Python's `str(timedelta)` switches to a day-prefixed format). -/
theorem write_chapters_format_counterexample :
    (∀ p ∈ [((86400 : ℚ), "A"), ((10 : ℚ), "B")], 0 ≤ p.1) ∧
    write_chapters [((86400 : ℚ), "A"), ((10 : ℚ), "B")] 0 =
      ["0:00:00 - A", "1 day, 0:00:00 - B"] ∧
    ("1 day, 0:00:00 - B" : String) ≠ hmsRepr (secOfQ (86400 : ℚ)) ++ " - " ++ "B" := by
  exact ⟨by decide, by decide, by decide⟩

/-- C7 (amended): for tracks with non-negative durations the
timestamps of `write_chapters` are non-decreasing in line order and
the first emitted line always carries timestamp `0:00:00`; every line
whose (truncated, clamped) timestamp is below 24 hours has exactly the
`H:MM:SS - label` form with unpadded total hours and two-digit
minutes/seconds — timestamps of a day or more use Python's
`D day(s), H:MM:SS` form instead. -/
theorem write_chapters_monotone_format (tracks : List (ℚ × String)) (off : ℚ)
    (hd : ∀ p ∈ tracks, 0 ≤ p.1) :
    List.Chain' (· ≤ ·) ((chapterEntries (pyMax0 off) 1 0 tracks).map Prod.fst) ∧
    (∀ p ∈ tracks.head?, (write_chapters tracks off).head? = some ("0:00:00 - " ++ p.2)) ∧
    (∀ e ∈ chapterEntries (pyMax0 off) 1 0 tracks, e.1 < 86400 →
      format_ts e.1 ++ " - " ++ e.2 = hmsRepr (secOfQ e.1) ++ " - " ++ e.2) ∧
    write_chapters tracks off =
      (chapterEntries (pyMax0 off) 1 0 tracks).map (fun e => format_ts e.1 ++ " - " ++ e.2) := by
  refine ⟨(chapterEntries_mono (pyMax0 off) tracks 1 0 hd).1, ?_, ?_, rfl⟩
  · intro p hp
    cases tracks with
    | nil => simp at hp
    | cons q rest =>
        have hq : q = p := by simpa using hp
        subst hq
        obtain ⟨d, label⟩ := q
        simp only [write_chapters, chapterEntries, List.map_cons, List.head?_cons]
        have : format_ts 0 ++ " - " ++ label = "0:00:00 - " ++ label := by
          have h0 : format_ts 0 ++ " - " = "0:00:00 - " := by decide
          rw [String.append_assoc, ← h0, String.append_assoc]
        rw [this]
  · intro e _ hlt
    rw [format_ts_hms hlt]

theorem write_chapters_monotone_format_witness :
    (∀ p ∈ [((3 : ℚ), "A"), ((2 : ℚ), "B")], 0 ≤ p.1) ∧
    (List.Chain' (· ≤ ·)
        ((chapterEntries (pyMax0 0) 1 0 [((3 : ℚ), "A"), ((2 : ℚ), "B")]).map Prod.fst) ∧
      (∀ p ∈ [((3 : ℚ), "A"), ((2 : ℚ), "B")].head?,
        (write_chapters [((3 : ℚ), "A"), ((2 : ℚ), "B")] 0).head? =
          some ("0:00:00 - " ++ p.2)) ∧
      (∀ e ∈ chapterEntries (pyMax0 0) 1 0 [((3 : ℚ), "A"), ((2 : ℚ), "B")], e.1 < 86400 →
        format_ts e.1 ++ " - " ++ e.2 = hmsRepr (secOfQ e.1) ++ " - " ++ e.2) ∧
      write_chapters [((3 : ℚ), "A"), ((2 : ℚ), "B")] 0 =
        (chapterEntries (pyMax0 0) 1 0 [((3 : ℚ), "A"), ((2 : ℚ), "B")]).map
          (fun e => format_ts e.1 ++ " - " ++ e.2)) :=
  ⟨by decide,
    write_chapters_monotone_format [((3 : ℚ), "A"), ((2 : ℚ), "B")] 0 (by decide)⟩

/-! ## Claim C8 -/

/-- C8 counterexample: the code's canonical token for the second
gospel is the French `"marc"`, displayed `"Marc"` — not `Mark` as the
specification's closed set `{Matthew, Mark, Luke, John}` asserts. -/
theorem norm_gospel_name_counterexample :
    norm_gospel_name "mark" = "marc" ∧
    display_gospel_name (norm_gospel_name "mark") = "Marc" ∧
    ("Marc" : String) ≠ "Mark" := by
  exact ⟨by decide, by decide, by decide⟩

/-- C8 (amended): book-name normalization is a closed many-to-one
mapping onto the internal tokens — `marc`/`mark` ↦ `"marc"`
(displayed `Marc`, not `Mark`); `luke`/`luc` ↦ `"luke"` (`Luke`);
`matt`/`matthew`/`matthieu` ↦ `"matthew"` (`Matthew`);
`john`/`jean` ↦ `"john"` (`John`); any unrecognized name passes
through as its stripped lowercase token rather than being rejected. -/
theorem norm_gospel_name_closed_mapping :
    (norm_gospel_name "marc" = "marc" ∧ norm_gospel_name "mark" = "marc" ∧
      display_gospel_name "marc" = "Marc") ∧
    (norm_gospel_name "luke" = "luke" ∧ norm_gospel_name "luc" = "luke" ∧
      display_gospel_name "luke" = "Luke") ∧
    (norm_gospel_name "matt" = "matthew" ∧ norm_gospel_name "matthew" = "matthew" ∧
      norm_gospel_name "matthieu" = "matthew" ∧ display_gospel_name "matthew" = "Matthew") ∧
    (norm_gospel_name "john" = "john" ∧ norm_gospel_name "jean" = "john" ∧
      display_gospel_name "john" = "John") ∧
    (∀ s : String,
      pyLower (pyStrip s) ∉
        (["marc", "mark", "luke", "luc", "matt", "matthew", "matthieu", "john", "jean"] :
          List String) →
      norm_gospel_name s = pyLower (pyStrip s)) := by
  refine ⟨⟨by decide, by decide, by decide⟩, ⟨by decide, by decide, by decide⟩,
    ⟨by decide, by decide, by decide, by decide⟩, ⟨by decide, by decide, by decide⟩, ?_⟩
  intro s h
  simp only [List.mem_cons, List.not_mem_nil, or_false, not_or] at h
  obtain ⟨h1, h2, h3, h4, h5, h6, h7, h8, h9⟩ := h
  unfold norm_gospel_name
  rw [if_neg (by tauto), if_neg (by tauto), if_neg (by tauto), if_neg (by tauto)]

theorem norm_gospel_name_closed_mapping_witness :
    (pyLower (pyStrip " Zacharie ") ∉
      (["marc", "mark", "luke", "luc", "matt", "matthew", "matthieu", "john", "jean"] :
        List String)) ∧
    norm_gospel_name " Zacharie " = pyLower (pyStrip " Zacharie ") :=
  ⟨by decide, norm_gospel_name_closed_mapping.2.2.2.2 " Zacharie " (by decide)⟩

/-! ## Claim C9: the target fallback in `build_playlist` -/

/-- Embedding of `tc_to_frames` from `utils.py`, applied to the four
colon-separated integer components of the timecode (the Python splits
the string and converts each part with `int`; `round` of an integer is
the identity). -/
def tc_to_frames (h m s f : Int) (fps : Int) : Int :=
  (h * 3600 + m * 60 + s) * fps + f

/-- Embedding of `frames_to_seconds` from `utils.py`. -/
def frames_to_seconds (frames : Int) (fps : Int) : ℚ :=
  (frames : ℚ) / (fps : ℚ)

/-- `CoreSettings.target_seconds` for the default configuration
(`final_duration_tc = "3:33:32:20"`, `fps = 30`). -/
def coreTargetSecondsDefault : ℚ :=
  frames_to_seconds (tc_to_frames 3 33 32 20 30) 30

/-- The `target = target_seconds or self.settings.core.target_seconds`
resolution at the top of `AudioEngine.build_playlist`: `None` *and*
any falsy float (`0.0`) fall back to the configured default. -/
def buildPlaylistTarget (target_seconds : Option ℚ) (coreTarget : ℚ) : ℚ :=
  match target_seconds with
  | none => coreTarget
  | some t => if t = 0 then coreTarget else t

/-- C9: `build_playlist` treats an explicit `0.0` target exactly like
an absent one — both fall back to the timecode-derived configured
default (`384380` frames at 30 fps, i.e. `38438/3` seconds, for the
default configuration) — so a caller can never obtain a zero-second
target; any non-zero requested target is used as given. -/
theorem build_playlist_target_fallback :
    (∀ c : ℚ, buildPlaylistTarget (some 0) c = c ∧ buildPlaylistTarget none c = c) ∧
    (∀ t c : ℚ, t ≠ 0 → buildPlaylistTarget (some t) c = t) ∧
    coreTargetSecondsDefault = 38438 / 3 := by
  refine ⟨fun c => ⟨by simp [buildPlaylistTarget], rfl⟩,
    fun t c ht => by simp [buildPlaylistTarget, ht], ?_⟩
  norm_num [coreTargetSecondsDefault, frames_to_seconds, tc_to_frames]

theorem build_playlist_target_fallback_witness :
    buildPlaylistTarget (some 0) coreTargetSecondsDefault = coreTargetSecondsDefault ∧
    ((5 : ℚ) ≠ 0 ∧ buildPlaylistTarget (some 5) 1 = 5) :=
  ⟨(build_playlist_target_fallback.1 coreTargetSecondsDefault).1,
    ⟨by decide, build_playlist_target_fallback.2.1 5 1 (by decide)⟩⟩

/-! ## Claim C10: digit-only preference strings become psalm numbers -/

theorem isDigit_not_ws {c : Char} (h : c.isDigit = true) : c.isWhitespace = false := by
  by_contra hw
  have hw2 : c.isWhitespace = true := by simpa using hw
  have hcases : c = ' ' ∨ c = '\t' ∨ c = '\r' ∨ c = '\n' := by
    simpa [Char.isWhitespace, or_assoc] using hw2
  rcases hcases with rfl | rfl | rfl | rfl <;> exact absurd h (by decide)

theorem dropWhile_ws_of_digits {l : List Char} (hd : ∀ c ∈ l, c.isDigit = true) :
    l.dropWhile Char.isWhitespace = l := by
  cases l with
  | nil => rfl
  | cons c t =>
      rw [List.dropWhile_cons, isDigit_not_ws (hd c (List.mem_cons_self c t))]
      simp

theorem pyStrip_digits {s : String} (hd : ∀ c ∈ s.data, c.isDigit = true) :
    pyStrip s = s := by
  cases s with
  | mk l =>
      unfold pyStrip
      simp only
      rw [dropWhile_ws_of_digits hd]
      rw [dropWhile_ws_of_digits (fun c hc => hd c (List.mem_reverse.mp hc))]
      rw [List.reverse_reverse]

theorem pyDigitsOk_digits :
    ∀ (l : List Char), l ≠ [] → (∀ c ∈ l, c.isDigit = true) → ∀ b, pyDigitsOk b l = true := by
  intro l
  induction l with
  | nil => intro h; exact absurd rfl h
  | cons c t ih =>
      intro _ hd b
      simp only [pyDigitsOk, hd c (List.mem_cons_self c t), if_true]
      cases t with
      | nil => rfl
      | cons c2 t2 =>
          exact ih (by simp) (fun x hx => hd x (List.mem_cons_of_mem _ hx)) true

theorem pySign_digits {c : Char} {t : List Char} (hc : c.isDigit = true) :
    pySign (c :: t) = (1, c :: t) := by
  have hplus : c ≠ '+' := by
    intro he
    rw [he] at hc
    exact absurd hc (by decide)
  have hminus : c ≠ '-' := by
    intro he
    rw [he] at hc
    exact absurd hc (by decide)
  unfold pySign
  split
  · next heq => exact absurd (List.head_eq_of_cons_eq heq) hplus
  · next heq => exact absurd (List.head_eq_of_cons_eq heq) hminus
  · rfl

theorem pyIntOfStr_digits {s : String} (hne : s.data ≠ []) (hd : ∀ c ∈ s.data, c.isDigit = true) :
    ∃ n : Int, pyIntOfStr s = some n := by
  cases hcs : s.data with
  | nil => exact absurd hcs hne
  | cons c t =>
      have hc : c.isDigit = true := hd c (by rw [hcs]; exact List.mem_cons_self c t)
      refine ⟨1 * Int.ofNat (digitsVal ((c :: t).filter Char.isDigit)), ?_⟩
      unfold pyIntOfStr
      rw [hcs, pySign_digits hc]
      rw [if_pos (pyDigitsOk_digits (c :: t) (by simp) (by rw [← hcs]; exact hd) false)]

/-- C10: a caller-supplied preference string consisting only of digits
is coerced by `coerce_iterable_str` to an integer token, and an
integer token is only ever matched through the psalm index
(`byPsalm`) — whatever it resolves to is a psalm record carrying that
psalm number, never a gospel reference.  Empty and whitespace-only
strings are dropped from the preference list. -/
theorem coerce_digit_strings :
    (∀ s : String, s.data ≠ [] → (∀ c ∈ s.data, c.isDigit = true) →
      ∃ n : Int, coerce_iterable_str [Pref.str s] = [Pref.int n] ∧
        ∀ (cands : List TrackItem) (it : TrackItem), byPsalm cands n = some it →
          it.type = "psalm" ∧ it.psalm_num = some n ∧ it ∈ cands) ∧
    (∀ s : String, pyStrip s = "" → coerce_iterable_str [Pref.str s] = []) := by
  constructor
  · intro s hne hd
    have hstrip : pyStrip s = s := pyStrip_digits hd
    obtain ⟨n, hn⟩ := pyIntOfStr_digits hne hd
    refine ⟨n, ?_, ?_⟩
    · simp only [coerce_iterable_str, hstrip, hn]
      rw [if_neg (by simpa [List.isEmpty_iff] using hne)]
    · intro cands it hb
      have hpred := List.find?_some hb
      simp only [Bool.and_eq_true, beq_iff_eq] at hpred
      exact ⟨hpred.1, hpred.2, List.mem_of_find?_eq_some hb⟩
  · intro s hstrip
    simp only [coerce_iterable_str, hstrip]
    rw [if_pos (by simp)]

theorem coerce_digit_strings_witness :
    ("23" : String).data ≠ [] ∧
    (∃ n : Int, coerce_iterable_str [Pref.str "23"] = [Pref.int n] ∧
      ∀ (cands : List TrackItem) (it : TrackItem), byPsalm cands n = some it →
        it.type = "psalm" ∧ it.psalm_num = some n ∧ it ∈ cands) ∧
    pyStrip "  " = "" ∧
    coerce_iterable_str [Pref.str "  "] = [] :=
  ⟨by decide,
    coerce_digit_strings.1 "23" (by decide) (by decide),
    by decide,
    coerce_digit_strings.2 "  " (by decide)⟩

/-- The repository's own test scenario (`tests/test_audio.py`): pool
psalm 23 (10s), psalm 91 (12s), Mark 4 (15s), target 20s, preferred
head `[23]`, a fixed seed — the selection starts with psalm 23 and the
total reaches the target.  (The modelled generator permutes the fill
differently from CPython's Mersenne Twister, but the head-first
placement and duration sufficiency are seed-independent.) -/
example :
    build_selection 2 [itemPs23, itemPs91, itemMark4] 20 [Pref.int 23]
      (some [itemPs23, itemPs91, itemMark4]) (some 123) 0 none =
      some ([itemPs23, itemPs91], 22) := by decide
